import Mathlib

/-!
Shallow embedding of the Scheduled Upload Pipeline of `src/app.py`
(YouTube auto-poster bot): title sanitization, fallback metadata,
AI-metadata parsing, the schedule-time phrase parser, the chunked-upload
progress tracker, and one scan of the background dispatcher loop.

Python strings are modelled as `List Char` (`Str`).  Character classes
(`str.isspace`, regex `\d`, `\w`) are modelled with Lean's ASCII-oriented
`Char` predicates; all concrete inputs in the claims are ASCII, and every
theorem compares the embedding with itself, so this choice is inert.
-/

set_option autoImplicit false

namespace YTBot

/-- Python strings, as lists of characters. -/
abbrev Str := List Char

/-- Leading-whitespace removal (`str.lstrip` semantics). -/
def dropWS (s : Str) : Str := s.dropWhile Char.isWhitespace

/-- Python `str.strip()`: remove leading and trailing whitespace. -/
def pyStrip (s : Str) : Str := ((dropWS s).reverse.dropWhile Char.isWhitespace).reverse

/-- Python `str.lower()` (ASCII model). -/
def pyLower (s : Str) : Str := s.map Char.toLower

/-- Does `pat` occur at the beginning of `s`? -/
def strStarts : Str → Str → Bool
  | [], _ => true
  | _ :: _, [] => false
  | p :: ps, c :: cs => p = c && strStarts ps cs

/-- Python `pat in s` (substring containment). -/
def hasSub (pat : Str) : Str → Bool
  | [] => pat.isEmpty
  | c :: cs => strStarts pat (c :: cs) || hasSub pat cs

/-- Python `c in s` for a single character. -/
def hasChar (c : Char) : Str → Bool
  | [] => false
  | a :: as => a = c || hasChar c as

/-- Fuel-driven worker for `replaceAll`; the fuel is the string length. -/
def replaceAllAux (pat rep : Str) : Nat → Str → Str
  | 0, s => s
  | _ + 1, [] => []
  | fuel + 1, c :: cs =>
    if strStarts pat (c :: cs) && !pat.isEmpty then
      rep ++ replaceAllAux pat rep fuel (List.drop (pat.length - 1) cs)
    else
      c :: replaceAllAux pat rep fuel cs

/-- Python `s.replace(pat, rep)`: all non-overlapping occurrences, left to right. -/
def replaceAll (pat rep s : Str) : Str := replaceAllAux pat rep s.length s

/-- Fuel-driven worker for `splitOnSub`. -/
def splitSubAux (sep : Str) : Nat → Str → Str → List Str
  | 0, s, acc => [acc.reverse ++ s]
  | _ + 1, [], acc => [acc.reverse]
  | fuel + 1, c :: cs, acc =>
    if strStarts sep (c :: cs) && !sep.isEmpty then
      acc.reverse :: splitSubAux sep fuel (List.drop (sep.length - 1) cs) []
    else
      splitSubAux sep fuel cs (c :: acc)

/-- Python `s.split(sep)` for a non-empty separator string. -/
def splitOnSub (sep s : Str) : List Str := splitSubAux sep s.length s []

/-- Python `s.split(c)` for a single-character separator (keeps empty pieces). -/
def splitOnChar (sep : Char) : Str → List Str
  | [] => [[]]
  | c :: cs =>
    if c = sep then [] :: splitOnChar sep cs
    else
      match splitOnChar sep cs with
      | [] => [[c]]
      | w :: ws => (c :: w) :: ws

/-- Python `sep.join(pieces)` for a single-character separator. -/
def joinWith (sep : Char) : List Str → Str
  | [] => []
  | [w] => w
  | w :: ws => w ++ sep :: joinWith sep ws

/-- Split at the first occurrence of `sep` (Python `s.split(sep, 1)` when present). -/
def splitAtFirst (sep : Char) : Str → Option (Str × Str)
  | [] => none
  | c :: cs =>
    if c = sep then some ([], cs)
    else (splitAtFirst sep cs).map (fun p => (c :: p.1, p.2))

/-- Worker for `pyWords`; `acc` holds the current word reversed. -/
def wordsAux : Str → Str → List Str
  | [], acc => if acc.isEmpty then [] else [acc.reverse]
  | c :: cs, acc =>
    if c.isWhitespace then
      if acc.isEmpty then wordsAux cs [] else acc.reverse :: wordsAux cs []
    else wordsAux cs (c :: acc)

/-- Python `s.split()` with no argument: whitespace-run splitting, no empty words. -/
def pyWords (s : Str) : List Str := wordsAux s []

/-- `' '.join(words)`. -/
def joinWords : List Str → Str
  | [] => []
  | [w] => w
  | w :: ws => w ++ ' ' :: joinWords ws

/-- The truncation step of `_sanitize_title`: hard truncation to 100
characters with a trailing ellipsis (`title[:97] + "..."`). -/
def truncateTitle (t2 : Str) : Str :=
  if 100 < t2.length then t2.take 97 ++ ("...".data) else t2

/-- `YouTubeBot._sanitize_title` (src/app.py lines 168-179): strip, collapse
whitespace, hard-truncate to 100 characters with a trailing ellipsis, and
substitute a placeholder when empty. -/
def _sanitize_title (title : Str) : Str :=
  if truncateTitle (joinWords (pyWords (pyStrip title))) = [] then ("Untitled Video".data)
  else truncateTitle (joinWords (pyWords (pyStrip title)))

/-- Last path component (`pathlib.PurePath.name` for the simple paths used here). -/
def lastComponent (p : Str) : Str := (p.reverse.takeWhile (fun c => c ≠ '/')).reverse

/-- `pathlib.PurePath.stem` on a file name: drop the final dot-suffix unless the
dot is the first or the last character. -/
def stemOf (name : Str) : Str :=
  match splitAtFirst '.' name.reverse with
  | some (a, b) => if a ≠ [] ∧ b ≠ [] then b.reverse else name
  | none => name

/-- `Path(video_path).stem`. -/
def pathStem (p : Str) : Str := stemOf (lastComponent p)

/-- Character class of the regex `[\w-]` (ASCII model of `\w`, plus the hyphen). -/
def isTagChar (c : Char) : Bool := c.isAlphanum || c = '_' || c = '-'

/-- `re.sub(r'\[[\w-]+\]$', '', title)`: strip one trailing bracketed tag. -/
def stripTrailingTag (s : Str) : Str :=
  match s.reverse with
  | ']' :: rest =>
    match splitAtFirst '[' rest with
    | some (tok, before) =>
      if tok ≠ [] ∧ tok.all isTagChar then before.reverse else s
    | none => s
  | _ => s

/-- `YouTubeBot._create_fallback_metadata` (src/app.py lines 181-199):
filename-derived (title, description). -/
def _create_fallback_metadata (videoPath userContext : Str) : Str × Str :=
  let videoName := pathStem videoPath
  let t1 := stripTrailingTag videoName
  let t2 := replaceAll ("｜｜".data) ("-".data) t1
  let t3 := replaceAll ("_".data) (" ".data) t2
  let t4 := joinWords (pyWords t3)
  let title := _sanitize_title t4
  let description :=
    ("Video: ".data) ++ videoName ++
      (if userContext ≠ [] then ("\n\n".data) ++ userContext else [])
  (title, description)

/-- Splitting of the collaborator's response text into a raw title and a
description (src/app.py lines 236-243): marker-based when both labels occur,
first-line/rest otherwise. -/
def parseResponse (text : Str) : Str × Str :=
  if hasSub ("TITLE:".data) text && hasSub ("DESCRIPTION:".data) text then
    let parts := splitOnSub ("DESCRIPTION:".data) text
    let t := pyStrip (replaceAll ("TITLE:".data) [] (parts.headD []))
    let d := pyStrip ((parts.drop 1).headD [])
    (t, d)
  else
    let lines := splitOnChar '\n' (pyStrip text)
    (pyStrip (lines.headD []), pyStrip (joinWith '\n' (lines.drop 1)))

/-- State of the text-generation collaborator: whether `self.gemini_model` is
set, and what `generate_content(...).text` does when invoked (`Except.error`
models a raised exception). -/
structure GenEnv where
  modelAvailable : Bool
  response : Except Str Str

/-- `YouTubeBot.generate_metadata` (src/app.py lines 201-265).  The Lean
function is total: the only fallible step is the collaborator call, whose
exception the source catches and maps to the fallback (`except Exception`). -/
def generate_metadata (env : GenEnv) (videoPath userContext : Str) : Str × Str :=
  let videoName := pathStem videoPath
  if env.modelAvailable = false then
    _create_fallback_metadata videoPath userContext
  else
    match env.response with
    | Except.error _ => _create_fallback_metadata videoPath userContext
    | Except.ok text =>
      let (rawTitle, rawDesc) := parseResponse text
      let t1 := pyStrip (replaceAll ("*".data) [] (replaceAll ("**".data) [] rawTitle))
      let title := _sanitize_title t1
      let description := if rawDesc = [] then ("Video: ".data) ++ videoName else rawDesc
      (title, description)

/-- Gregorian leap-year rule (Python `calendar`/`datetime` semantics). -/
def isLeap (y : Nat) : Bool := y % 4 = 0 && (y % 100 ≠ 0 || y % 400 = 0)

/-- Days in a month of the proleptic Gregorian calendar. -/
def daysInMonth (y m : Nat) : Nat :=
  if m = 2 then (if isLeap y then 29 else 28)
  else if m = 4 ∨ m = 6 ∨ m = 9 ∨ m = 11 then 30
  else 31

/-- Days in a calendar year. -/
def daysInYear (y : Nat) : Nat := if isLeap y then 366 else 365

/-- Days in the months `1, ..., m-1` of year `y`. -/
def daysBeforeMonth (y : Nat) : Nat → Nat
  | 0 => 0
  | 1 => 0
  | m + 1 => daysBeforeMonth y m + daysInMonth y m

/-- Days in the years `1, ..., y`. -/
def daysBeforeYear : Nat → Nat
  | 0 => 0
  | y + 1 => daysBeforeYear y + daysInYear (y + 1)

/-- A naive `datetime.datetime` value. -/
structure PyDateTime where
  year : Nat
  month : Nat
  day : Nat
  hour : Nat
  minute : Nat
  second : Nat
  usec : Nat
deriving DecidableEq, Repr

/-- Day index of a date on the absolute (proleptic Gregorian) timeline. -/
def toDays (d : PyDateTime) : Nat :=
  daysBeforeYear (d.year - 1) + daysBeforeMonth d.year d.month + (d.day - 1)

/-- Seconds of a datetime on the absolute timeline (microseconds ignored). -/
def toAbsSec (d : PyDateTime) : Nat :=
  86400 * toDays d + 3600 * d.hour + 60 * d.minute + d.second

/-- `datetime` validity as enforced by the `datetime` constructor. -/
def validDT (d : PyDateTime) : Prop :=
  1 ≤ d.year ∧ d.year ≤ 9999 ∧ 1 ≤ d.month ∧ d.month ≤ 12 ∧
    1 ≤ d.day ∧ d.day ≤ daysInMonth d.year d.month ∧
    d.hour < 24 ∧ d.minute < 60 ∧ d.second < 60 ∧ d.usec < 1000000

instance (d : PyDateTime) : Decidable (validDT d) := by
  unfold validDT; infer_instance

/-- Python comparison of naive datetimes: lexicographic on the fields. -/
def pyLe (a b : PyDateTime) : Bool :=
  if a.year ≠ b.year then decide (a.year < b.year)
  else if a.month ≠ b.month then decide (a.month < b.month)
  else if a.day ≠ b.day then decide (a.day < b.day)
  else if a.hour ≠ b.hour then decide (a.hour < b.hour)
  else if a.minute ≠ b.minute then decide (a.minute < b.minute)
  else if a.second ≠ b.second then decide (a.second < b.second)
  else decide (a.usec ≤ b.usec)

/-- `dt + timedelta(days=1)` for an in-range datetime: one calendar day, which
for naive datetimes is exactly 24 hours; the time-of-day fields are unchanged. -/
def addOneDay (dt : PyDateTime) : PyDateTime :=
  if dt.day < daysInMonth dt.year dt.month then { dt with day := dt.day + 1 }
  else if dt.month < 12 then { dt with month := dt.month + 1, day := 1 }
  else { dt with year := dt.year + 1, month := 1, day := 1 }

/-- Numeric value of an ASCII digit. -/
def d1 (a : Char) : Nat := a.toNat - 48

/-- Numeric value of two ASCII digits. -/
def d2 (a b : Char) : Nat := 10 * d1 a + d1 b

/-- `strptime(s, '%H')`: a bare 24-hour hour, one or two digits, consuming the
whole string (with the regex backtracking of `_strptime`). -/
def strptime_H : Str → Option Nat
  | [a] => if a.isDigit then some (d1 a) else none
  | [a, b] => if a.isDigit && b.isDigit && d2 a b ≤ 23 then some (d2 a b) else none
  | _ => none

/-- The `%M` field consuming the whole remaining string. -/
def strptime_Mrest : Str → Option Nat
  | [a] => if a.isDigit then some (d1 a) else none
  | [a, b] => if a.isDigit && b.isDigit && d2 a b ≤ 59 then some (d2 a b) else none
  | _ => none

/-- `strptime(s, '%H:%M')`. -/
def strptime_HM : Str → Option (Nat × Nat)
  | a :: ':' :: rest =>
    if a.isDigit then (strptime_Mrest rest).map (fun m => (d1 a, m)) else none
  | a :: b :: ':' :: rest =>
    if a.isDigit && b.isDigit && d2 a b ≤ 23 then
      (strptime_Mrest rest).map (fun m => (d2 a b, m))
    else none
  | _ => none

/-- The `%p` field (AM/PM, case-insensitive) consuming the whole rest;
`false` is AM, `true` is PM. -/
def parse_p : Str → Option Bool
  | [a, m] =>
    if (a = 'a' || a = 'A') && (m = 'm' || m = 'M') then some false
    else if (a = 'p' || a = 'P') && (m = 'm' || m = 'M') then some true
    else none
  | _ => none

/-- One-or-more whitespace (a literal blank in a `strptime` format). -/
def wsPlus : Str → Option Str
  | c :: cs => if c.isWhitespace then some (cs.dropWhile Char.isWhitespace) else none
  | [] => none

/-- 12-hour to 24-hour conversion as done by `_strptime`. -/
def toH24 (i : Nat) (pm : Bool) : Nat :=
  if pm then (if i = 12 then 12 else i + 12) else (if i = 12 then 0 else i)

/-- `strptime(s, '%I %p')`, returning the 24-hour hour. -/
def strptime_Ip : Str → Option Nat
  | a :: b :: rest =>
    if a.isDigit && b.isDigit && 1 ≤ d2 a b && d2 a b ≤ 12 then
      match wsPlus rest with
      | some r2 => (parse_p r2).map (toH24 (d2 a b))
      | none => none
    else if a.isDigit && 1 ≤ d1 a then
      match wsPlus (b :: rest) with
      | some r2 => (parse_p r2).map (toH24 (d1 a))
      | none => none
    else none
  | _ => none

/-- The `%M %p` tail of `'%I:%M %p'`, given the parsed `%I` value. -/
def imTail (i : Nat) : Str → Option (Nat × Nat)
  | a :: b :: rest =>
    if a.isDigit && b.isDigit && d2 a b ≤ 59 then
      match wsPlus rest with
      | some r2 => (parse_p r2).map (fun pm => (toH24 i pm, d2 a b))
      | none => none
    else if a.isDigit then
      match wsPlus (b :: rest) with
      | some r2 => (parse_p r2).map (fun pm => (toH24 i pm, d1 a))
      | none => none
    else none
  | _ => none

/-- `strptime(s, '%I:%M %p')`, returning (24-hour hour, minute). -/
def strptime_IMp : Str → Option (Nat × Nat)
  | a :: ':' :: rest => if a.isDigit && 1 ≤ d1 a then imTail (d1 a) rest else none
  | a :: b :: ':' :: rest =>
    if a.isDigit && b.isDigit && 1 ≤ d2 a b && d2 a b ≤ 12 then imTail (d2 a b) rest
    else none
  | _ => none

/-- The `%m-%d` tail of `'%Y-%m-%d'`: day field (1-31 by the regex). -/
def dayRest : Str → Option Nat
  | [a] => if a.isDigit && 1 ≤ d1 a then some (d1 a) else none
  | [a, b] =>
    if a.isDigit && b.isDigit && 1 ≤ d2 a b && d2 a b ≤ 31 then some (d2 a b) else none
  | _ => none

/-- The `%m-%d` part: month field then `-` then day field. -/
def mdPart : Str → Option (Nat × Nat)
  | a :: '-' :: rest =>
    if a.isDigit && 1 ≤ d1 a then (dayRest rest).map (fun d => (d1 a, d)) else none
  | a :: b :: '-' :: rest =>
    if a.isDigit && b.isDigit && 1 ≤ d2 a b && d2 a b ≤ 12 then
      (dayRest rest).map (fun d => (d2 a b, d))
    else none
  | _ => none

/-- `strptime(s, '%Y-%m-%d')` including the `datetime` constructor's
validation (year at least 1, day within the month). -/
def strptime_Ymd : Str → Option (Nat × Nat × Nat)
  | y1 :: y2 :: y3 :: y4 :: '-' :: rest =>
    if y1.isDigit && y2.isDigit && y3.isDigit && y4.isDigit then
      let y := 1000 * d1 y1 + 100 * d1 y2 + 10 * d1 y3 + d1 y4
      match mdPart rest with
      | some (mo, d) => if 1 ≤ y ∧ d ≤ daysInMonth y mo then some (y, mo, d) else none
      | none => none
    else none
  | _ => none

/-- The time-part handling shared by the date branch of `parse_schedule_time`
(src/app.py lines 450-458): am/pm replacement then the matching format. -/
def parseTimeSpec (tp : Str) : Option (Nat × Nat) :=
  if hasSub ("am".data) tp || hasSub ("pm".data) tp then
    let t2 := replaceAll ("pm".data) (" PM".data) (replaceAll ("am".data) (" AM".data) tp)
    if hasChar ':' t2 then strptime_IMp (pyStrip t2)
    else (strptime_Ip (pyStrip t2)).map (fun h => (h, 0))
  else strptime_HM (pyStrip tp)

/-- The time-only branch of `parse_schedule_time` (src/app.py lines 464-475),
returning (hour, minute). -/
def parseTimeOnly (s : Str) : Option (Nat × Nat) :=
  if hasSub ("am".data) s || hasSub ("pm".data) s then
    let t2 := replaceAll ("pm".data) (" PM".data) (replaceAll ("am".data) (" AM".data) s)
    if hasChar ':' t2 then strptime_IMp (pyStrip t2)
    else (strptime_Ip (pyStrip t2)).map (fun h => (h, 0))
  else
    if hasChar ':' s then strptime_HM (pyStrip s)
    else (strptime_H (pyStrip s)).map (fun h => (h, 0))

/-- `parse_schedule_time` (src/app.py lines 439-488).  The try/except is
modelled by `Option`; the one failure that can occur after a successful
time-only parse is the `OverflowError` of `+ timedelta(days=1)` at the end of
year 9999, which the handler also maps to `None`. -/
def parse_schedule_time (input : Str) (now : PyDateTime) : Option PyDateTime :=
  let s := pyStrip (pyLower input)
  if hasChar ' ' s then
    match splitAtFirst ' ' s with
    | none => none
    | some (datePart, timePart) =>
      match strptime_Ymd datePart with
      | none => none
      | some (y, mo, d) =>
        match parseTimeSpec timePart with
        | none => none
        | some (h, mi) => some ⟨y, mo, d, h, mi, 0, 0⟩
  else
    match parseTimeOnly s with
    | none => none
    | some (h, mi) =>
      let result : PyDateTime := { now with hour := h, minute := mi, second := 0, usec := 0 }
      if pyLe result now then
        if result.year = 9999 ∧ result.month = 12 ∧ result.day = 31 then none
        else some (addOneDay result)
      else some result

/-- One return value of `request.next_chunk()`: an optional progress report
(fraction complete, and the `time.time()` observed right after) and an
optional final response carrying the video id. -/
structure Chunk where
  progress : Option (ℚ × ℚ)
  response : Option Str
deriving DecidableEq

/-- One call to `next_chunk()`; `Except.error` models a raised exception. -/
abbrev ChunkCall := Except Str Chunk

/-- The milestone percentages of the throttling policy. -/
def milestones : List ℤ := [25, 50, 75, 100]

/-- The upload progress loop of `YouTubeBot.upload_video` (src/app.py lines
326-338): returns the surfaced progress percentages in order, and the loop's
outcome (`none` when the supplied step list is exhausted with the transfer
still unfinished).  `last` is `last_progress_time`, updated only when an event
is surfaced; `Int.floor` models `int()` on the non-negative fractions. -/
def chunkLoop : List ChunkCall → ℚ → List ℤ × Option (Except Str Str)
  | [], _ => ([], none)
  | Except.error e :: _, _ => ([], some (Except.error e))
  | Except.ok ck :: rest, last =>
    match ck.progress, ck.response with
    | none, some vid => ([], some (Except.ok vid))
    | none, none => chunkLoop rest last
    | some (f, now), resp =>
      let pct : ℤ := Int.floor (f * 100)
      if 2 ≤ now - last ∨ pct ∈ milestones then
        match resp with
        | some vid => ([pct], some (Except.ok vid))
        | none =>
          let p := chunkLoop rest now
          (pct :: p.1, p.2)
      else
        match resp with
        | some vid => ([], some (Except.ok vid))
        | none => chunkLoop rest last

/-- The effectful collaborators one call to `upload_video` interacts with. -/
structure UploadEnv where
  fileExists : Bool
  gen : GenEnv
  chunks : List ChunkCall
  startTime : ℚ

/-- `YouTubeBot.upload_video` (src/app.py lines 267-363) seen from the
dispatcher: `some (some id)` is a normal return of a video id, `some none` a
normal return of `None` (missing file, or an exception caught by the
`except HttpError` / `except Exception` handlers), and the outer `none` means
the modelled step list ran out before the transfer finished.  Metadata
generation is total (`generate_metadata`), so it never aborts the call. -/
def upload_video (env : UploadEnv) (videoPath userContext : Str) : Option (Option Str) :=
  if env.fileExists = false then some none
  else
    let _metadata := generate_metadata env.gen videoPath userContext
    match (chunkLoop env.chunks env.startTime).2 with
    | some (Except.ok vid) => some (some vid)
    | some (Except.error _) => some none
    | none => none

/-- Status field of a `ScheduledUpload` (src/app.py line 73). -/
inductive UploadStatus where
  | pending
  | uploading
  | completed
  | failed
deriving DecidableEq, Repr

/-- A terminal status. -/
def UploadStatus.isTerminal : UploadStatus → Bool
  | UploadStatus.completed => true
  | UploadStatus.failed => true
  | _ => false

/-- `ScheduledUpload` (src/app.py lines 62-73). -/
structure ScheduledUpload where
  videoPath : Str
  scheduledTime : PyDateTime
  privacy : Str
  tags : List Str
  userContext : Str
  status : UploadStatus
deriving DecidableEq

/-- One scan of `YouTubeBot._scheduler_loop` (src/app.py lines 390-418): with
`current_time` fixed, iterate over a snapshot of the registry; each entry that
is `pending` and due is executed (`pending → uploading → completed/failed`)
and removed from the live list right after its terminal status is recorded.
Returns `(remaining registry, executed entries with their final status)`;
`none` means some executed entry's modelled transfer never finished (the real
loop would still be inside that upload). -/
def schedulerScan (envOf : ScheduledUpload → UploadEnv) (now : PyDateTime) :
    List ScheduledUpload → Option (List ScheduledUpload × List ScheduledUpload)
  | [] => some ([], [])
  | u :: rest =>
    if u.status = UploadStatus.pending ∧ pyLe u.scheduledTime now then
      match upload_video (envOf u) u.videoPath u.userContext with
      | none => none
      | some r =>
        let fin := if r.isSome then UploadStatus.completed else UploadStatus.failed
        match schedulerScan envOf now rest with
        | none => none
        | some (l, log) => some (l, { u with status := fin } :: log)
    else
      match schedulerScan envOf now rest with
      | none => none
      | some (l, log) => some (u :: l, log)

/-! ### C9: fallback metadata scenario -/

/-- C9: for the filename "Sunset Timelapse [raw].mp4" with no generation
collaborator available and empty user context, fallback metadata generation
returns the title "Sunset Timelapse", and a description beginning with
"Video: Sunset Timelapse [raw]"; `generate_metadata` with the collaborator
unavailable returns exactly that fallback pair. -/
theorem fallback_sunset_scenario :
    (_create_fallback_metadata ("Sunset Timelapse [raw].mp4".data) []).1 =
      ("Sunset Timelapse".data) ∧
    strStarts ("Video: Sunset Timelapse [raw]".data)
      ((_create_fallback_metadata ("Sunset Timelapse [raw].mp4".data) []).2) = true ∧
    generate_metadata ⟨false, Except.ok []⟩ ("Sunset Timelapse [raw].mp4".data) [] =
      _create_fallback_metadata ("Sunset Timelapse [raw].mp4".data) [] := by
  refine ⟨by decide, by decide, by decide⟩

/-! ### C3: metadata generation error handling -/

/-- C3 counterexample: with the collaborator available and answering
"TITLE: DESCRIPTION: cool video", response parsing yields an empty (unusable)
raw title, yet the returned metadata is NOT the filename-derived fallback:
the title becomes the placeholder "Untitled Video" while the fallback title
for "my_video.mp4" is "my video". -/
theorem generate_metadata_empty_title_not_fallback :
    (parseResponse ("TITLE: DESCRIPTION: cool video".data)).1 = [] ∧
    generate_metadata ⟨true, Except.ok ("TITLE: DESCRIPTION: cool video".data)⟩
        ("my_video.mp4".data) [] ≠
      _create_fallback_metadata ("my_video.mp4".data) [] := by
  refine ⟨by decide, by decide⟩

/-- C3 (amended): metadata generation is a total function (the embedding of
the try/except structure of `generate_metadata` returns a pair on every
input), and whenever the generation collaborator is unavailable or raises,
the result equals the deterministic filename-derived fallback.  When the
collaborator responds but parsing yields no usable title, the title is the
placeholder "Untitled Video", not the fallback. -/
theorem generate_metadata_fallback_on_error (env : GenEnv) (p c : Str)
    (h : env.modelAvailable = false ∨ ∃ e, env.response = Except.error e) :
    generate_metadata env p c = _create_fallback_metadata p c := by
  rcases h with h | ⟨e, h⟩
  · simp [generate_metadata, h]
  · cases hm : env.modelAvailable
    · simp [generate_metadata, hm]
    · simp [generate_metadata, hm, h]

/-- Witness for the amended C3 theorem at a concrete unavailable collaborator. -/
theorem generate_metadata_fallback_on_error_witness :
    generate_metadata ⟨false, Except.ok []⟩ ("a.mp4".data) [] =
      _create_fallback_metadata ("a.mp4".data) [] :=
  generate_metadata_fallback_on_error _ _ _ (Or.inl rfl)

/-! ### C7: truncation of long titles -/

/-- C7 counterexample: the input 'a' followed by 100 spaces has length 101
(exceeding 100), yet sanitization returns "a" (length 1, no ellipsis),
because whitespace is collapsed before the length test. -/
theorem sanitize_long_input_counterexample :
    ('a' :: List.replicate 100 ' ').length = 101 ∧
    _sanitize_title ('a' :: List.replicate 100 ' ') = ['a'] := by
  refine ⟨by decide, by decide⟩

/-- C7 (amended): for every input title whose whitespace-normalized form
(strip plus collapse of internal whitespace runs) exceeds 100 characters, the
sanitized title has length exactly 100 and ends with the ellipsis marker. -/
theorem sanitize_truncates_normalized (t : Str)
    (h : 100 < (joinWords (pyWords (pyStrip t))).length) :
    (_sanitize_title t).length = 100 ∧
    ∃ p, _sanitize_title t = p ++ ("...".data) := by
  have htr : truncateTitle (joinWords (pyWords (pyStrip t))) =
      (joinWords (pyWords (pyStrip t))).take 97 ++ ("...".data) := by
    unfold truncateTitle
    rw [if_pos h]
  have hlen : (truncateTitle (joinWords (pyWords (pyStrip t)))).length = 100 := by
    rw [htr]
    simp [List.length_take]
    omega
  have hne : truncateTitle (joinWords (pyWords (pyStrip t))) ≠ [] := by
    intro hh
    rw [hh] at hlen
    simp at hlen
  unfold _sanitize_title
  rw [if_neg hne]
  exact ⟨hlen, ⟨_, htr⟩⟩

/-- Witness for the amended C7 theorem on a 101-character title. -/
theorem sanitize_truncates_normalized_witness :
    (_sanitize_title (List.replicate 101 'a')).length = 100 ∧
    ∃ p, _sanitize_title (List.replicate 101 'a') = p ++ ("...".data) :=
  sanitize_truncates_normalized _ (by decide)

/-! ### C4: progress throttling -/

/-- The stub resumable transfer of the scenario: progress fractions 0.1,
0.26, 0.5, 0.9, 1.0 observed at the given times, completing on the last step. -/
def stubTransfer (t1 t2 t3 t4 t5 : ℚ) (vid : Str) : List ChunkCall :=
  [Except.ok ⟨some (1/10, t1), none⟩,
   Except.ok ⟨some (26/100, t2), none⟩,
   Except.ok ⟨some (1/2, t3), none⟩,
   Except.ok ⟨some (9/10, t4), none⟩,
   Except.ok ⟨some (1, t5), some vid⟩]

/-- C4 counterexample: with the stub fractions reported at times 0.1 .. 0.5
seconds (all within 2 seconds of each other and of the start), the surfaced
events are exactly 50% and 100%: the 0.26 fraction maps to integer
percentage 26, which is not a milestone, so the "25%" event is NOT surfaced. -/
theorem progress_25_not_surfaced :
    (chunkLoop (stubTransfer (1/10) (2/10) (3/10) (4/10) (5/10) ("vid".data)) 0).1 =
      [50, 100] ∧
    (25 : ℤ) ∉ ([50, 100] : List ℤ) ∧ (26 : ℤ) ∉ ([50, 100] : List ℤ) := by
  refine ⟨?_, by decide, by decide⟩
  norm_num [stubTransfer, chunkLoop, milestones]

/-- A progress step whose integer percentage is a milestone is always
surfaced, no matter the elapsed times, as long as the loop reaches it. -/
theorem chunkLoop_milestone_mem (pre : List ChunkCall) (rest : List ChunkCall)
    (f t : ℚ) (resp : Option Str) (last : ℚ)
    (hpre : ∀ c ∈ pre, ∃ p, c = Except.ok ⟨p, none⟩)
    (hms : Int.floor (f * 100) ∈ milestones) :
    Int.floor (f * 100) ∈
      (chunkLoop (pre ++ Except.ok ⟨some (f, t), resp⟩ :: rest) last).1 := by
  induction pre generalizing last with
  | nil =>
    simp only [List.nil_append, chunkLoop]
    rw [if_pos (Or.inr hms)]
    cases resp <;> simp
  | cons c pre ih =>
    obtain ⟨p, rfl⟩ := hpre c (List.mem_cons_self c pre)
    have hpre' : ∀ c ∈ pre, ∃ p, c = Except.ok ⟨p, none⟩ := by
      intro x hx
      exact hpre x (List.mem_cons_of_mem _ hx)
    cases p with
    | none =>
      simpa only [List.cons_append, chunkLoop] using ih last hpre'
    | some ft =>
      obtain ⟨f', t'⟩ := ft
      simp only [List.cons_append, chunkLoop]
      split
      · simpa using Or.inr (ih t' hpre')
      · exact ih last hpre'

/-- C4 (amended): for the stub transfer reporting fractions 0.1, 0.26, 0.5,
0.9, 1.0, the tracker surfaces at least the events at 50% and 100% regardless
of timing (they are milestone percentages); the 0.26 event maps to 26%, which
is not a milestone, and is surfaced only when 2 seconds have elapsed since
the last surfaced event. -/
theorem progress_milestones_always_surfaced (t0 t1 t2 t3 t4 t5 : ℚ) (vid : Str) :
    (50 : ℤ) ∈ (chunkLoop (stubTransfer t1 t2 t3 t4 t5 vid) t0).1 ∧
    (100 : ℤ) ∈ (chunkLoop (stubTransfer t1 t2 t3 t4 t5 vid) t0).1 := by
  constructor
  · have h := chunkLoop_milestone_mem
      [Except.ok ⟨some (1/10, t1), none⟩, Except.ok ⟨some (26/100, t2), none⟩]
      [Except.ok ⟨some (9/10, t4), none⟩, Except.ok ⟨some (1, t5), some vid⟩]
      (1/2) t3 none t0 (by intro c hc; fin_cases hc <;> exact ⟨_, rfl⟩) (by norm_num [milestones])
    have hf : (Int.floor ((1/2 : ℚ) * 100)) = (50 : ℤ) := by norm_num
    rw [hf] at h
    simpa [stubTransfer] using h
  · have h := chunkLoop_milestone_mem
      [Except.ok ⟨some (1/10, t1), none⟩, Except.ok ⟨some (26/100, t2), none⟩,
       Except.ok ⟨some (1/2, t3), none⟩, Except.ok ⟨some (9/10, t4), none⟩]
      [] 1 t5 (some vid) t0 (by intro c hc; fin_cases hc <;> exact ⟨_, rfl⟩) (by norm_num [milestones])
    have hf : (Int.floor ((1 : ℚ) * 100)) = (100 : ℤ) := by norm_num
    rw [hf] at h
    simpa [stubTransfer] using h

/-! ### C1 and C2: dispatcher error containment and eager removal -/

/-- C1: if the transfer collaborator raises on any step of a due entry's
upload, the dispatcher scan records the entry's status as `failed`, removes
it from the active set (the remaining registry is exactly the one obtained
from the other entries), and returns normally (`some`), so no exception
escapes the loop body. -/
theorem dispatcher_contains_transfer_failure
    (envOf : ScheduledUpload → UploadEnv) (now : PyDateTime) (u : ScheduledUpload)
    (rest res log : List ScheduledUpload) (msg : Str)
    (hp : u.status = UploadStatus.pending)
    (hdue : pyLe u.scheduledTime now = true)
    (hfile : (envOf u).fileExists = true)
    (herr : (chunkLoop (envOf u).chunks (envOf u).startTime).2 = some (Except.error msg))
    (hrest : schedulerScan envOf now rest = some (res, log)) :
    schedulerScan envOf now (u :: rest) =
      some (res, { u with status := UploadStatus.failed } :: log) := by
  have hup : upload_video (envOf u) u.videoPath u.userContext = some none := by
    simp [upload_video, hfile, herr]
  simp [schedulerScan, hp, hdue, hup, hrest]

/-- Environment used by the dispatcher witnesses: the transfer collaborator
raises on its first step. -/
def envRaise : ScheduledUpload → UploadEnv :=
  fun _ => ⟨true, ⟨false, Except.ok []⟩, [Except.error ("boom".data)], 0⟩

/-- A pending entry due at 2025-01-01. -/
def sampleEntry : ScheduledUpload :=
  ⟨("v.mp4".data), ⟨2025, 1, 1, 0, 0, 0, 0⟩, ("private".data), [], [], UploadStatus.pending⟩

/-- The scan instant, after the sample entry's fire time. -/
def sampleNow : PyDateTime := ⟨2025, 1, 2, 0, 0, 0, 0⟩

/-- Witness for C1: a one-entry registry whose transfer raises immediately. -/
theorem dispatcher_contains_transfer_failure_witness :
    schedulerScan envRaise sampleNow [sampleEntry] =
      some ([], [{ sampleEntry with status := UploadStatus.failed }]) :=
  dispatcher_contains_transfer_failure envRaise sampleNow sampleEntry [] [] []
    ("boom".data) rfl (by decide) rfl rfl rfl

/-- C2: a dispatcher scan removes every entry it executes right after
recording its terminal status: every executed entry's recorded status is
terminal (`completed` or `failed`), and if no entry of the registry was in a
terminal state before the scan, no entry of the remaining registry is in a
terminal state after it. -/
theorem scan_removes_terminal_entries
    (envOf : ScheduledUpload → UploadEnv) (now : PyDateTime)
    (l res log : List ScheduledUpload)
    (hscan : schedulerScan envOf now l = some (res, log))
    (hinit : ∀ u ∈ l, u.status.isTerminal = false) :
    (∀ u ∈ res, u.status.isTerminal = false) ∧
    (∀ u ∈ log, u.status.isTerminal = true) := by
  induction l generalizing res log with
  | nil =>
    simp only [schedulerScan, Option.some.injEq, Prod.mk.injEq] at hscan
    obtain ⟨h1, h2⟩ := hscan
    subst h1
    subst h2
    exact ⟨by simp, by simp⟩
  | cons u rest ih =>
    have hinit' : ∀ v ∈ rest, v.status.isTerminal = false := fun v hv =>
      hinit v (List.mem_cons_of_mem _ hv)
    simp only [schedulerScan] at hscan
    split at hscan
    · cases hup : upload_video (envOf u) u.videoPath u.userContext with
      | none => rw [hup] at hscan; exact absurd hscan (by simp)
      | some r =>
        rw [hup] at hscan
        cases hs : schedulerScan envOf now rest with
        | none => rw [hs] at hscan; exact absurd hscan (by simp)
        | some p =>
          obtain ⟨l', log'⟩ := p
          rw [hs] at hscan
          simp only [Option.some.injEq, Prod.mk.injEq] at hscan
          obtain ⟨h1, h2⟩ := hscan
          subst h1
          subst h2
          obtain ⟨ihres, ihlog⟩ := ih l' log' hs hinit'
          refine ⟨ihres, ?_⟩
          intro v hv
          rcases List.mem_cons.mp hv with hv | hv
          · subst hv
            cases r <;> simp [UploadStatus.isTerminal]
          · exact ihlog v hv
    · cases hs : schedulerScan envOf now rest with
      | none => rw [hs] at hscan; exact absurd hscan (by simp)
      | some p =>
        obtain ⟨l', log'⟩ := p
        rw [hs] at hscan
        simp only [Option.some.injEq, Prod.mk.injEq] at hscan
        obtain ⟨h1, h2⟩ := hscan
        subst h1
        subst h2
        obtain ⟨ihres, ihlog⟩ := ih l' log' hs hinit'
        refine ⟨?_, ihlog⟩
        intro v hv
        rcases List.mem_cons.mp hv with hv | hv
        · subst hv
          exact hinit v (List.mem_cons_self _ _)
        · exact ihres v hv

/-- Environment for the C2 witness: the transfer finishes immediately with a
video id. -/
def envOk : ScheduledUpload → UploadEnv :=
  fun _ => ⟨true, ⟨false, Except.ok []⟩, [Except.ok ⟨none, some ("vid".data)⟩], 0⟩

/-- Witness for C2: a scan over a one-entry registry that completes. -/
theorem scan_removes_terminal_entries_witness :
    (∀ u ∈ ([] : List ScheduledUpload), u.status.isTerminal = false) ∧
    (∀ u ∈ [{ sampleEntry with status := UploadStatus.completed }],
        u.status.isTerminal = true) :=
  scan_removes_terminal_entries envOk sampleNow [sampleEntry] []
    [{ sampleEntry with status := UploadStatus.completed }] (by decide) (by decide)

/-! ### Calendar lemmas for the time parser claims -/

/-- Every month has at least one day. -/
theorem daysInMonth_pos (y m : Nat) : 1 ≤ daysInMonth y m := by
  unfold daysInMonth
  split
  · split <;> omega
  · split <;> omega

/-- The months of a year sum to its length. -/
theorem daysBeforeMonth_twelve (y : Nat) :
    daysBeforeMonth y 12 + daysInMonth y 12 = daysInYear y := by
  cases h : isLeap y <;>
    simp [daysBeforeMonth, daysInMonth, daysInYear, h]

/-- Validity of the date fields alone. -/
def dateOK (d : PyDateTime) : Prop :=
  1 ≤ d.year ∧ 1 ≤ d.month ∧ d.month ≤ 12 ∧ 1 ≤ d.day ∧ d.day ≤ daysInMonth d.year d.month

/-- Adding one calendar day advances the absolute day index by one. -/
theorem toDays_addOneDay (d : PyDateTime) (h : dateOK d) :
    toDays (addOneDay d) = toDays d + 1 := by
  obtain ⟨hy1, hm1, hm2, hd1, hd2⟩ := h
  unfold addOneDay
  split
  · next hlt =>
    simp only [toDays]
    omega
  · next hge =>
    have hday : d.day = daysInMonth d.year d.month := by omega
    split
    · next hmlt =>
      obtain ⟨k, hk⟩ : ∃ k, d.month = k + 1 := ⟨d.month - 1, by omega⟩
      have hstep : daysBeforeMonth d.year (k + 1 + 1) =
          daysBeforeMonth d.year (k + 1) + daysInMonth d.year (k + 1) := by
        cases k with
        | zero => simp [daysBeforeMonth]
        | succ j => rfl
      simp only [toDays, hk] at *
      omega
    · next hm12 =>
      have hm : d.month = 12 := by omega
      obtain ⟨z, hz⟩ : ∃ z, d.year = z + 1 := ⟨d.year - 1, by omega⟩
      have h31 : daysInMonth (z + 1) 12 = 31 := by simp [daysInMonth]
      have hday31 : d.day = 31 := by
        rw [hz, hm] at hday
        omega
      have hsum := daysBeforeMonth_twelve (z + 1)
      have hdby : daysBeforeYear (z + 1) = daysBeforeYear z + daysInYear (z + 1) := rfl
      have hone : daysBeforeMonth (z + 1 + 1) 1 = 0 := rfl
      simp only [toDays, hm, hz, hday31, Nat.add_sub_cancel, hone]
      rw [h31] at hsum
      omega

/-- `addOneDay` leaves the time-of-day fields unchanged. -/
theorem addOneDay_time (d : PyDateTime) :
    (addOneDay d).hour = d.hour ∧ (addOneDay d).minute = d.minute ∧
      (addOneDay d).second = d.second ∧ (addOneDay d).usec = d.usec := by
  unfold addOneDay
  split
  · exact ⟨rfl, rfl, rfl, rfl⟩
  · split
    · exact ⟨rfl, rfl, rfl, rfl⟩
    · exact ⟨rfl, rfl, rfl, rfl⟩

/-- Adding one calendar day to a naive datetime is exactly 24 hours. -/
theorem toAbsSec_addOneDay (d : PyDateTime) (h : dateOK d) :
    toAbsSec (addOneDay d) = toAbsSec d + 86400 := by
  obtain ⟨h1, h2, h3, _⟩ := addOneDay_time d
  unfold toAbsSec
  rw [h1, h2, h3, toDays_addOneDay d h]
  ring

/-! ### C5, C6, C10: the time-phrase parser -/

/-- Shared evaluation of the time-only branch of `parse_schedule_time`:
once the time-only grammar produced (hour, minute), the parser resolves to
today's date at that time and shifts forward one day exactly when that
timestamp is not strictly after `now`. -/
theorem parse_time_only_branch (s : Str) (now : PyDateTime) (h mi : Nat)
    (hnos : hasChar ' ' (pyStrip (pyLower s)) = false)
    (hp : parseTimeOnly (pyStrip (pyLower s)) = some (h, mi))
    (hov : ¬(now.year = 9999 ∧ now.month = 12 ∧ now.day = 31)) :
    parse_schedule_time s now =
      some (if pyLe { now with hour := h, minute := mi, second := 0, usec := 0 } now
            then addOneDay { now with hour := h, minute := mi, second := 0, usec := 0 }
            else { now with hour := h, minute := mi, second := 0, usec := 0 }) := by
  simp only [parse_schedule_time, hnos, Bool.false_eq_true, if_false, hp]
  cases hle : pyLe { now with hour := h, minute := mi, second := 0, usec := 0 } now with
  | false => simp
  | true =>
    simp only [if_true]
    rw [if_neg hov]

/-- C5: for every phrase accepted by the time-only grammar whose same-day
resolution (today's date at the parsed hour/minute, second 0) is earlier than
or equal to `now`, the parser returns that timestamp shifted by one calendar
day (exactly 86400 seconds later, with the hour and minute preserved), and
when the same-day resolution is strictly after `now` it is returned
unshifted.  (At the upper end of the calendar, 9999-12-31, the shift would
overflow `datetime` and the parser returns failure instead, hence the last
hypothesis.) -/
theorem time_only_rollover (s : Str) (now : PyDateTime) (h mi : Nat)
    (hnos : hasChar ' ' (pyStrip (pyLower s)) = false)
    (hp : parseTimeOnly (pyStrip (pyLower s)) = some (h, mi))
    (hv : validDT now)
    (hov : ¬(now.year = 9999 ∧ now.month = 12 ∧ now.day = 31)) :
    parse_schedule_time s now =
      some (if pyLe { now with hour := h, minute := mi, second := 0, usec := 0 } now
            then addOneDay { now with hour := h, minute := mi, second := 0, usec := 0 }
            else { now with hour := h, minute := mi, second := 0, usec := 0 }) ∧
    toAbsSec (addOneDay { now with hour := h, minute := mi, second := 0, usec := 0 }) =
      toAbsSec { now with hour := h, minute := mi, second := 0, usec := 0 } + 86400 ∧
    (addOneDay { now with hour := h, minute := mi, second := 0, usec := 0 }).hour = h ∧
    (addOneDay { now with hour := h, minute := mi, second := 0, usec := 0 }).minute = mi := by
  refine ⟨parse_time_only_branch s now h mi hnos hp hov, ?_, ?_, ?_⟩
  · apply toAbsSec_addOneDay
    obtain ⟨hy1, _, hm1, hm2, hd1, hd2, _⟩ := hv
    exact ⟨hy1, hm1, hm2, hd1, hd2⟩
  · exact (addOneDay_time _).1
  · exact (addOneDay_time _).2.1

/-- The current moment used in the parser witnesses: 2025-03-15 10:30:45.123456. -/
def witnessNow : PyDateTime := ⟨2025, 3, 15, 10, 30, 45, 123456⟩

/-- Witness for C5: the phrase "9am" at 10:30:45 resolves to 9:00 tomorrow. -/
theorem time_only_rollover_witness :
    parse_schedule_time ("9am".data) witnessNow =
      some (if pyLe { witnessNow with hour := 9, minute := 0, second := 0, usec := 0 } witnessNow
            then addOneDay { witnessNow with hour := 9, minute := 0, second := 0, usec := 0 }
            else { witnessNow with hour := 9, minute := 0, second := 0, usec := 0 }) ∧
    toAbsSec (addOneDay { witnessNow with hour := 9, minute := 0, second := 0, usec := 0 }) =
      toAbsSec { witnessNow with hour := 9, minute := 0, second := 0, usec := 0 } + 86400 ∧
    (addOneDay { witnessNow with hour := 9, minute := 0, second := 0, usec := 0 }).hour = 9 ∧
    (addOneDay { witnessNow with hour := 9, minute := 0, second := 0, usec := 0 }).minute = 0 :=
  time_only_rollover ("9am".data) witnessNow 9 0 (by decide) (by decide) (by decide) (by decide)

/-- C6: for every phrase made of a `YYYY-MM-DD` date, a space, and a valid
time, the parser returns exactly the specified absolute timestamp with second
and microsecond 0, for every value of `now` (hence no day-rollover is applied
even when the timestamp is in the past). -/
theorem date_time_no_rollover (s : Str) (now : PyDateTime) (dp tp : Str)
    (y mo d h mi : Nat)
    (hspace : hasChar ' ' (pyStrip (pyLower s)) = true)
    (hsp : splitAtFirst ' ' (pyStrip (pyLower s)) = some (dp, tp))
    (hd : strptime_Ymd dp = some (y, mo, d))
    (ht : parseTimeSpec tp = some (h, mi)) :
    parse_schedule_time s now = some ⟨y, mo, d, h, mi, 0, 0⟩ := by
  simp only [parse_schedule_time, hspace, if_true, hsp, hd, ht]

/-- Witness for C6: "2025-01-15 9am" parsed at 2025-03-15 (so the result lies
in the past) is exactly 2025-01-15 09:00:00. -/
theorem date_time_no_rollover_witness :
    parse_schedule_time ("2025-01-15 9am".data) witnessNow =
      some ⟨2025, 1, 15, 9, 0, 0, 0⟩ :=
  date_time_no_rollover ("2025-01-15 9am".data) witnessNow
    ("2025-01-15".data) ("9am".data) 2025 1 15 9 0
    (by decide) (by decide) (by decide) (by decide)

/-- Value of a string of decimal digits. -/
def digitsVal (s : Str) : Nat := s.foldl (fun n c => 10 * n + d1 c) 0

/-- A member of a string whose characters all satisfy `p` satisfies `p`. -/
theorem all_mem_true {s : Str} {p : Char → Bool} {c : Char}
    (hall : s.all p = true) (hc : c ∈ s) : p c = true :=
  (List.all_eq_true.mp hall) c hc

/-- `hasChar` finds only members. -/
theorem mem_of_hasChar (c : Char) (s : Str) (h : hasChar c s = true) : c ∈ s := by
  induction s with
  | nil => exact absurd h (by simp [hasChar])
  | cons a as ih =>
    simp only [hasChar, Bool.or_eq_true, decide_eq_true_eq] at h
    rcases h with h | h
    · exact h ▸ List.mem_cons_self a as
    · exact List.mem_cons_of_mem a (ih h)

/-- `hasSub` with a non-empty pattern implies the pattern's head occurs. -/
theorem mem_of_hasSub (c : Char) (cs s : Str) (h : hasSub (c :: cs) s = true) : c ∈ s := by
  induction s with
  | nil => exact absurd h (by simp [hasSub, List.isEmpty])
  | cons a as ih =>
    simp only [hasSub, Bool.or_eq_true] at h
    rcases h with h | h
    · simp only [strStarts, Bool.and_eq_true, decide_eq_true_eq] at h
      exact h.1 ▸ List.mem_cons_self a as
    · exact List.mem_cons_of_mem a (ih h)

/-- A decimal digit is not whitespace. -/
theorem digit_not_ws (c : Char) (h : c.isDigit = true) : c.isWhitespace = false := by
  cases hw : c.isWhitespace
  · rfl
  · exfalso
    have hc : c = ' ' ∨ c = '\t' ∨ c = '\r' ∨ c = '\n' := by
      simp only [Char.isWhitespace, Bool.or_eq_true, decide_eq_true_eq] at hw
      tauto
    rcases hc with h1 | h1 | h1 | h1 <;> subst h1 <;> exact absurd h (by decide)

/-- `dropWhile` is the identity on a string with no whitespace. -/
theorem dropWS_eq_self (s : Str) (h : s.all (fun c => !c.isWhitespace) = true) :
    dropWS s = s := by
  cases s with
  | nil => rfl
  | cons a as =>
    simp only [List.all_cons, Bool.and_eq_true, Bool.not_eq_true'] at h
    simp [dropWS, List.dropWhile_cons, h.1]

/-- `str.strip()` is the identity on a string with no whitespace. -/
theorem pyStrip_eq_self (s : Str) (h : s.all (fun c => !c.isWhitespace) = true) :
    pyStrip s = s := by
  unfold pyStrip
  rw [dropWS_eq_self s h]
  have hrev : s.reverse.all (fun c => !c.isWhitespace) = true := by
    simpa using h
  have := dropWS_eq_self s.reverse hrev
  unfold dropWS at this
  rw [this, List.reverse_reverse]

/-- An all-digit string of one or two characters with value at most 23 is
accepted by the `%H` format with exactly that value. -/
theorem strptime_H_digits (s : Str) (hr : Nat)
    (hdig : s.all Char.isDigit = true)
    (hlen : s.length = 1 ∨ s.length = 2)
    (hval : digitsVal s = hr) (hhr : hr ≤ 23) :
    strptime_H s = some hr := by
  rcases hlen with h1 | h2
  · obtain ⟨a, rfl⟩ := List.length_eq_one.mp h1
    simp only [List.all_cons, List.all_nil, Bool.and_true] at hdig
    simp only [digitsVal, List.foldl] at hval
    simp [strptime_H, hdig, hval]
    omega
  · obtain ⟨a, b, rfl⟩ := List.length_eq_two.mp h2
    simp only [List.all_cons, List.all_nil, Bool.and_true, Bool.and_eq_true] at hdig
    simp only [digitsVal, List.foldl] at hval
    have hd2 : d2 a b = hr := by
      simp only [d2]
      omega
    simp [strptime_H, hdig.1, hdig.2, hd2, hhr]

/-- C10: beyond the two grammars of the spec, the time-only path also accepts
a bare 24-hour hour with no minutes (an all-digit phrase of one or two
digits, value at most 23), resolving to today's date at that hour with
minute 0 and second 0 (or, when that moment is not strictly after `now`,
to tomorrow via the usual one-day shift, which does not change the
time-of-day fields). -/
theorem bare_hour_accepted (s : Str) (hr : Nat) (now : PyDateTime)
    (hdig : (pyStrip (pyLower s)).all Char.isDigit = true)
    (hlen : (pyStrip (pyLower s)).length = 1 ∨ (pyStrip (pyLower s)).length = 2)
    (hval : digitsVal (pyStrip (pyLower s)) = hr)
    (hhr : hr ≤ 23)
    (hov : ¬(now.year = 9999 ∧ now.month = 12 ∧ now.day = 31)) :
    parse_schedule_time s now =
      some (if pyLe { now with hour := hr, minute := 0, second := 0, usec := 0 } now
            then addOneDay { now with hour := hr, minute := 0, second := 0, usec := 0 }
            else { now with hour := hr, minute := 0, second := 0, usec := 0 }) := by
  have hnotds : ∀ c, c ∈ pyStrip (pyLower s) → c.isDigit = true :=
    fun c hc => all_mem_true hdig hc
  have hnos : hasChar ' ' (pyStrip (pyLower s)) = false := by
    cases hsp : hasChar ' ' (pyStrip (pyLower s))
    · rfl
    · exact absurd (hnotds ' ' (mem_of_hasChar _ _ hsp)) (by decide)
  have hnocolon : hasChar ':' (pyStrip (pyLower s)) = false := by
    cases hsp : hasChar ':' (pyStrip (pyLower s))
    · rfl
    · exact absurd (hnotds ':' (mem_of_hasChar _ _ hsp)) (by decide)
  have hnoam : hasSub ("am".data) (pyStrip (pyLower s)) = false := by
    cases hsp : hasSub ("am".data) (pyStrip (pyLower s))
    · rfl
    · exact absurd (hnotds 'a' (mem_of_hasSub _ _ _ hsp)) (by decide)
  have hnopm : hasSub ("pm".data) (pyStrip (pyLower s)) = false := by
    cases hsp : hasSub ("pm".data) (pyStrip (pyLower s))
    · rfl
    · exact absurd (hnotds 'p' (mem_of_hasSub _ _ _ hsp)) (by decide)
  have hnows : (pyStrip (pyLower s)).all (fun c => !c.isWhitespace) = true := by
    rw [List.all_eq_true]
    intro c hc
    rw [Bool.not_eq_true']
    exact digit_not_ws c (hnotds c hc)
  have hstrip : pyStrip (pyStrip (pyLower s)) = pyStrip (pyLower s) :=
    pyStrip_eq_self _ hnows
  have hH : strptime_H (pyStrip (pyStrip (pyLower s))) = some hr := by
    rw [hstrip]
    exact strptime_H_digits _ hr hdig hlen hval hhr
  have hp : parseTimeOnly (pyStrip (pyLower s)) = some (hr, 0) := by
    simp [parseTimeOnly, hnoam, hnopm, hnocolon, hH]
  exact parse_time_only_branch s now hr 0 hnos hp hov

/-- Witness for C10: the phrase "14" at 10:30:45 resolves to today at 14:00. -/
theorem bare_hour_accepted_witness :
    parse_schedule_time ("14".data) witnessNow =
      some (if pyLe { witnessNow with hour := 14, minute := 0, second := 0, usec := 0 } witnessNow
            then addOneDay { witnessNow with hour := 14, minute := 0, second := 0, usec := 0 }
            else { witnessNow with hour := 14, minute := 0, second := 0, usec := 0 }) :=
  bare_hour_accepted ("14".data) 14 witnessNow (by decide) (by decide) (by decide)
    (by decide) (by decide)

/-! ### C8: idempotence of title sanitization

The proof characterizes the strings fixed by strip-plus-collapse: no leading
or trailing whitespace, no two adjacent whitespace characters, and every
whitespace character a plain blank. -/

/-- No whitespace at all. -/
def noWS (w : Str) : Bool := w.all (fun c => !c.isWhitespace)

/-- The first character, when present, is not whitespace. -/
def headOk : Str → Bool
  | [] => true
  | c :: _ => !c.isWhitespace

/-- The last character, when present, is not whitespace. -/
def lastOk (s : Str) : Bool := headOk s.reverse

/-- No two adjacent whitespace characters. -/
def noDoubleWS : Str → Bool
  | c :: d :: rest => !(c.isWhitespace && d.isWhitespace) && noDoubleWS (d :: rest)
  | _ => true

/-- Every whitespace character is a plain blank. -/
def wsAreSpace (s : Str) : Bool := s.all (fun c => !c.isWhitespace || c = ' ')

/-- The normal form preserved by strip-plus-collapse. -/
def cleanQ (s : Str) : Bool := headOk s && lastOk s && noDoubleWS s && wsAreSpace s

/-- Word lists produced by `split()`: non-empty, whitespace-free words. -/
def validWords (ws : List Str) : Prop := ∀ w ∈ ws, w ≠ [] ∧ noWS w = true

theorem headOk_of_noWS {s : Str} (h : noWS s = true) : headOk s = true := by
  cases s with
  | nil => rfl
  | cons a as =>
    simp only [noWS, List.all_cons, Bool.and_eq_true] at h
    simp [headOk, h.1]

theorem lastOk_of_noWS {s : Str} (h : noWS s = true) : lastOk s = true := by
  unfold lastOk
  apply headOk_of_noWS
  simpa [noWS] using h

theorem wsAreSpace_of_noWS {s : Str} (h : noWS s = true) : wsAreSpace s = true := by
  simp only [noWS, List.all_eq_true] at h
  simp only [wsAreSpace, List.all_eq_true]
  intro c hc
  simp [h c hc]

theorem noDouble_of_noWS {s : Str} (h : noWS s = true) : noDoubleWS s = true := by
  induction s with
  | nil => rfl
  | cons a as ih =>
    cases as with
    | nil => rfl
    | cons b bs =>
      simp only [noWS, List.all_cons, Bool.and_eq_true] at h
      have htail : noDoubleWS (b :: bs) = true := by
        apply ih
        simp [noWS, h.2.1, h.2.2]
      simp [noDoubleWS, h.1, htail]

theorem noDouble_tail {c : Char} {cs : Str} (h : noDoubleWS (c :: cs) = true) :
    noDoubleWS cs = true := by
  cases cs with
  | nil => rfl
  | cons d ds =>
    simp only [noDoubleWS, Bool.and_eq_true] at h
    exact h.2

theorem headOk_append_left {x : Str} (y : Str) (hx : x ≠ []) :
    headOk (x ++ y) = headOk x := by
  cases x with
  | nil => exact absurd rfl hx
  | cons a as => rfl

theorem lastOk_append_right (x : Str) {y : Str} (hy : y ≠ []) :
    lastOk (x ++ y) = lastOk y := by
  unfold lastOk
  rw [List.reverse_append]
  exact headOk_append_left x.reverse (by simpa using hy)

theorem lastOk_cons {c : Char} {l : Str} (hl : l ≠ []) : lastOk (c :: l) = lastOk l := by
  have : c :: l = [c] ++ l := rfl
  rw [this, lastOk_append_right [c] hl]

theorem lastOk_tail {c : Char} {cs : Str} (h : lastOk (c :: cs) = true) :
    lastOk cs = true := by
  cases hcs : cs with
  | nil => rfl
  | cons d ds =>
    rw [← hcs]
    rw [lastOk_cons (by simp [hcs])] at h
    exact h

theorem noDouble_append (x y : Str) (hx : noDoubleWS x = true) (hy : noDoubleWS y = true)
    (hb : ∀ a b, x.getLast? = some a → y.head? = some b →
      (a.isWhitespace && b.isWhitespace) = false) :
    noDoubleWS (x ++ y) = true := by
  induction x with
  | nil => simpa using hy
  | cons a as ih =>
    cases as with
    | nil =>
      cases y with
      | nil => rfl
      | cons b bs =>
        have hab := hb a b rfl rfl
        simp only [List.singleton_append, noDoubleWS, Bool.and_eq_true]
        exact ⟨by simp [hab], hy⟩
    | cons a' as' =>
      simp only [noDoubleWS, Bool.and_eq_true] at hx
      have htail : noDoubleWS ((a' :: as') ++ y) = true := by
        apply ih hx.2
        intro p q hp hq
        exact hb p q (by rw [List.getLast?_cons_cons]; exact hp) hq
      simp only [List.cons_append] at htail ⊢
      simp only [noDoubleWS, Bool.and_eq_true]
      exact ⟨by simp [Bool.and_eq_true] at hx ⊢; tauto, htail⟩

theorem noDouble_take (s : Str) (k : Nat) (h : noDoubleWS s = true) :
    noDoubleWS (s.take k) = true := by
  induction s generalizing k with
  | nil => simp [noDoubleWS]
  | cons c cs ih =>
    cases k with
    | zero => rfl
    | succ j =>
      cases cs with
      | nil =>
        cases j <;> rfl
      | cons d ds =>
        cases j with
        | zero => rfl
        | succ j' =>
          simp only [noDoubleWS, Bool.and_eq_true] at h
          have htail := ih (j' + 1) h.2
          simp only [List.take_succ_cons] at htail ⊢
          simp only [noDoubleWS, Bool.and_eq_true]
          exact ⟨h.1, htail⟩

theorem all_take (s : Str) (k : Nat) (p : Char → Bool) (h : s.all p = true) :
    (s.take k).all p = true := by
  rw [List.all_eq_true] at h ⊢
  intro c hc
  exact h c (List.take_subset k s hc)

theorem wordsAux_valid (s : Str) : ∀ acc : Str, noWS acc = true →
    ∀ w ∈ wordsAux s acc, w ≠ [] ∧ noWS w = true := by
  induction s with
  | nil =>
    intro acc hacc w hw
    simp only [wordsAux] at hw
    split at hw
    · exact absurd hw (by simp)
    · next hne =>
      rw [List.mem_singleton] at hw
      subst hw
      refine ⟨by simpa using hne, ?_⟩
      simpa [noWS] using hacc
  | cons c cs ih =>
    intro acc hacc w hw
    simp only [wordsAux] at hw
    split at hw
    · split at hw
      · exact ih [] rfl w hw
      · next hne =>
        rcases List.mem_cons.mp hw with hw | hw
        · subst hw
          refine ⟨by simpa using hne, ?_⟩
          simpa [noWS] using hacc
        · exact ih [] rfl w hw
    · next hcw =>
      apply ih (c :: acc) _ w hw
      simp only [noWS, List.all_cons, Bool.and_eq_true]
      exact ⟨by simp [hcw], hacc⟩

theorem wordsAux_ne_nil (s : Str) : ∀ acc : Str, acc ≠ [] → wordsAux s acc ≠ [] := by
  induction s with
  | nil =>
    intro acc hacc
    simp only [wordsAux]
    rw [if_neg (by simpa using hacc)]
    simp
  | cons c cs ih =>
    intro acc hacc
    simp only [wordsAux]
    split
    · rw [if_neg (by simpa using hacc)]
      simp
    · exact ih (c :: acc) (by simp)

theorem joinWords_cons (w : Str) (l : List Str) (hl : l ≠ []) :
    joinWords (w :: l) = w ++ ' ' :: joinWords l := by
  cases l with
  | nil => exact absurd rfl hl
  | cons x ys => rfl

theorem joinWords_ne_nil (ws : List Str) (h : validWords ws) (hne : ws ≠ []) :
    joinWords ws ≠ [] := by
  cases ws with
  | nil => exact absurd rfl hne
  | cons w l =>
    have hw := (h w (List.mem_cons_self _ _)).1
    cases l with
    | nil => simpa [joinWords] using hw
    | cons x ys =>
      rw [joinWords_cons w (x :: ys) (by simp)]
      intro hcontra
      exact hw (List.append_eq_nil.mp hcontra).1

/-- Collapsing a string already in normal form reproduces it: `' '.join` of
`split()` is the identity there.  `acc` carries the reversed current word. -/
theorem joinWords_wordsAux (s : Str) : ∀ acc : Str,
    noDoubleWS s = true → wsAreSpace s = true → lastOk s = true →
    (∀ c cs', s = c :: cs' → c.isWhitespace = true → acc ≠ []) →
    joinWords (wordsAux s acc) = acc.reverse ++ s := by
  induction s with
  | nil =>
    intro acc _ _ _ _
    simp only [wordsAux]
    split
    · next he
      =>
      have : acc = [] := by simpa using he
      subst this
      rfl
    · simp [joinWords]
  | cons c cs ih =>
    intro acc hnd hwsp hlast hhead
    have hwsp' : wsAreSpace cs = true := by
      simp only [wsAreSpace, List.all_cons, Bool.and_eq_true] at hwsp
      exact hwsp.2
    cases hw : c.isWhitespace with
    | false =>
      have hstep : wordsAux (c :: cs) acc = wordsAux cs (c :: acc) := by
        rw [wordsAux, if_neg (by simp [hw])]
      rw [hstep]
      rw [ih (c :: acc) (noDouble_tail hnd) hwsp' (lastOk_tail hlast)
          (by intro d ds' heq hwd; simp)]
      simp
    | true =>
      have hacc : acc ≠ [] := hhead c cs rfl hw
      have hsp : c = ' ' := by
        simp only [wsAreSpace, List.all_cons, Bool.and_eq_true] at hwsp
        have := hwsp.1
        simp [hw] at this
        exact this
      cases hcs : cs with
      | nil =>
        exfalso
        subst hcs
        simp only [lastOk, List.reverse_cons, List.reverse_nil, List.nil_append,
          headOk] at hlast
        simp [hw] at hlast
      | cons d ds =>
        subst hcs
        have hwd : d.isWhitespace = false := by
          simp only [noDoubleWS, Bool.and_eq_true] at hnd
          have := hnd.1
          simp [hw] at this
          exact this
        have hstep : wordsAux (c :: d :: ds) acc = acc.reverse :: wordsAux (d :: ds) [] := by
          rw [wordsAux, if_pos hw, if_neg (by simpa using hacc)]
        rw [hstep]
        have hne2 : wordsAux (d :: ds) [] ≠ [] := by
          rw [wordsAux, if_neg (by simp [hwd])]
          exact wordsAux_ne_nil ds [d] (by simp)
        rw [joinWords_cons _ _ hne2]
        rw [ih [] (noDouble_tail hnd) hwsp' (lastOk_tail hlast) ?_]
        · simp [hsp]
        · intro e es' heq hwe
          exfalso
          rw [List.cons.injEq] at heq
          rw [← heq.1] at hwe
          rw [hwd] at hwe
          exact Bool.false_ne_true hwe

/-- A string in normal form is reproduced by collapse. -/
theorem joinWords_pyWords_eq_self (s : Str) (h : cleanQ s = true) :
    joinWords (pyWords s) = s := by
  simp only [cleanQ, Bool.and_eq_true] at h
  obtain ⟨⟨⟨hhead, hlast⟩, hnd⟩, hwsp⟩ := h
  unfold pyWords
  rw [joinWords_wordsAux s [] hnd hwsp hlast ?_]
  · rfl
  · intro c cs' heq hw
    exfalso
    subst heq
    simp only [headOk] at hhead
    simp [hw] at hhead

/-- Joining non-empty whitespace-free words with single blanks yields a
string in normal form. -/
theorem cleanQ_joinWords (ws : List Str) (h : validWords ws) :
    cleanQ (joinWords ws) = true := by
  induction ws with
  | nil => rfl
  | cons w l ih =>
    obtain ⟨hwne, hwnws⟩ := h w (List.mem_cons_self _ _)
    have hl : validWords l := fun v hv => h v (List.mem_cons_of_mem _ hv)
    cases l with
    | nil =>
      show cleanQ (joinWords [w]) = true
      have : joinWords [w] = w := rfl
      rw [this]
      simp only [cleanQ, Bool.and_eq_true]
      exact ⟨⟨⟨headOk_of_noWS hwnws, lastOk_of_noWS hwnws⟩, noDouble_of_noWS hwnws⟩,
        wsAreSpace_of_noWS hwnws⟩
    | cons x ys =>
      have hJclean := ih hl
      simp only [cleanQ, Bool.and_eq_true] at hJclean
      obtain ⟨⟨⟨hJhead, hJlast⟩, hJnd⟩, hJwsp⟩ := hJclean
      have hJne : joinWords (x :: ys) ≠ [] := joinWords_ne_nil _ hl (by simp)
      rw [joinWords_cons w (x :: ys) (by simp)]
      simp only [cleanQ, Bool.and_eq_true]
      refine ⟨⟨⟨?_, ?_⟩, ?_⟩, ?_⟩
      · rw [headOk_append_left _ hwne]
        exact headOk_of_noWS hwnws
      · rw [lastOk_append_right w (by simp)]
        rw [lastOk_cons hJne]
        exact hJlast
      · apply noDouble_append w _ (noDouble_of_noWS hwnws)
        · cases hJ : joinWords (x :: ys) with
          | nil => exact absurd hJ hJne
          | cons j js =>
            have hjw : j.isWhitespace = false := by
              rw [hJ] at hJhead
              simpa [headOk] using hJhead
            simp only [noDoubleWS, Bool.and_eq_true]
            refine ⟨by simp [hjw], ?_⟩
            rw [← hJ]
            exact hJnd
        · intro a b hlast hhead
          have ha : a ∈ w := by
            obtain ⟨hne', heq⟩ :=
              List.mem_getLast?_eq_getLast (l := w) (x := a) (Option.mem_def.mpr hlast)
            rw [heq]
            exact List.getLast_mem hne'
          have : a.isWhitespace = false := by
            simp only [noWS, List.all_eq_true] at hwnws
            simpa using hwnws a ha
          simp [this]
      · simp only [wsAreSpace, List.all_append, List.all_cons, Bool.and_eq_true]
        exact ⟨wsAreSpace_of_noWS hwnws, by simp, hJwsp⟩

/-- A string in normal form is unchanged by `strip()`. -/
theorem pyStrip_clean (s : Str) (hhead : headOk s = true) (hlast : lastOk s = true) :
    pyStrip s = s := by
  have h1 : dropWS s = s := by
    cases s with
    | nil => rfl
    | cons a as =>
      simp only [headOk] at hhead
      have haw : a.isWhitespace = false := by simpa using hhead
      simp [dropWS, List.dropWhile_cons, haw]
  unfold pyStrip
  rw [h1]
  have h2 : s.reverse.dropWhile Char.isWhitespace = s.reverse := by
    cases hr : s.reverse with
    | nil => rfl
    | cons a as =>
      unfold lastOk at hlast
      rw [hr] at hlast
      simp only [headOk] at hlast
      have haw : a.isWhitespace = false := by simpa using hlast
      simp [List.dropWhile_cons, haw]
  rw [h2, List.reverse_reverse]

/-- Truncation with an appended ellipsis preserves the normal form. -/
theorem cleanQ_truncate (s : Str) (h : cleanQ s = true) (hne : s ≠ []) :
    cleanQ (s.take 97 ++ ("...".data)) = true := by
  simp only [cleanQ, Bool.and_eq_true] at h
  obtain ⟨⟨⟨hhead, hlast⟩, hnd⟩, hwsp⟩ := h
  simp only [cleanQ, Bool.and_eq_true]
  refine ⟨⟨⟨?_, ?_⟩, ?_⟩, ?_⟩
  · cases s with
    | nil => exact absurd rfl hne
    | cons a as =>
      rw [List.take_succ_cons, headOk_append_left _ (by simp)]
      simpa [headOk] using hhead
  · rw [lastOk_append_right _ (by decide)]
    decide
  · apply noDouble_append _ _ (noDouble_take s 97 hnd) (by decide)
    intro a b _ hb
    have : b = '.' := by
      simp only [List.head?] at hb
      exact (Option.some.injEq .. ▸ hb).symm ▸ rfl
    subst this
    simp
  · simp only [wsAreSpace, List.all_append, Bool.and_eq_true]
    exact ⟨all_take s 97 _ hwsp, by decide⟩

/-- A non-empty normal-form string of length at most 100 is a fixed point of
the sanitizer. -/
theorem sanitize_fixed (X : Str) (hc : cleanQ X = true) (hlen : X.length ≤ 100)
    (hne : X ≠ []) : _sanitize_title X = X := by
  have hcq := hc
  simp only [cleanQ, Bool.and_eq_true] at hcq
  obtain ⟨⟨⟨hhead, hlast⟩, _⟩, _⟩ := hcq
  have h1 : pyStrip X = X := pyStrip_clean X hhead hlast
  have h2 : joinWords (pyWords X) = X := joinWords_pyWords_eq_self X hc
  have h3 : truncateTitle X = X := by
    unfold truncateTitle
    rw [if_neg (by omega)]
  unfold _sanitize_title
  rw [h1, h2, h3, if_neg hne]

/-- C8: title sanitization is idempotent: applying `_sanitize_title` twice
yields the same result as applying it once, for every input string. -/
theorem sanitize_idempotent (t : Str) :
    _sanitize_title (_sanitize_title t) = _sanitize_title t := by
  have hval : validWords (pyWords (pyStrip t)) := wordsAux_valid _ [] rfl
  have hclean : cleanQ (joinWords (pyWords (pyStrip t))) = true :=
    cleanQ_joinWords _ hval
  by_cases hlen : 100 < (joinWords (pyWords (pyStrip t))).length
  · have hnne : joinWords (pyWords (pyStrip t)) ≠ [] := by
      intro hcontra
      rw [hcontra] at hlen
      simp at hlen
    have htr : truncateTitle (joinWords (pyWords (pyStrip t))) =
        (joinWords (pyWords (pyStrip t))).take 97 ++ ("...".data) := by
      unfold truncateTitle
      rw [if_pos hlen]
    have hXlen : ((joinWords (pyWords (pyStrip t))).take 97 ++ ("...".data)).length = 100 := by
      simp [List.length_take]
      omega
    have hXne : (joinWords (pyWords (pyStrip t))).take 97 ++ ("...".data) ≠ [] := by
      intro hcontra
      rw [hcontra] at hXlen
      simp at hXlen
    have hX : _sanitize_title t =
        (joinWords (pyWords (pyStrip t))).take 97 ++ ("...".data) := by
      unfold _sanitize_title
      rw [htr, if_neg hXne]
    rw [hX]
    exact sanitize_fixed _ (cleanQ_truncate _ hclean hnne) (by omega) hXne
  · have htr : truncateTitle (joinWords (pyWords (pyStrip t))) =
        joinWords (pyWords (pyStrip t)) := by
      unfold truncateTitle
      rw [if_neg hlen]
    by_cases hnil : joinWords (pyWords (pyStrip t)) = []
    · have hX : _sanitize_title t = ("Untitled Video".data) := by
        unfold _sanitize_title
        rw [htr, if_pos hnil]
      rw [hX]
      decide
    · have hX : _sanitize_title t = joinWords (pyWords (pyStrip t)) := by
        unfold _sanitize_title
        rw [htr, if_neg hnil]
      rw [hX]
      exact sanitize_fixed _ hclean (by omega) hnil

end YTBot
